import Mathlib

/-!
Verification of the isla footprint driver (`src/footprint.rs`) and the IR
lexer (`isla-lib/src/ir_lexer.rs`).

The Rust sources are shallowly embedded: pure helper functions become Lean
functions; the driver's effects (printing to standard error / standard
output, `exit(code)`, Rust panics) are made explicit in result types; the
SMT solver session is explicit state (declaration counter, declaration
list, assertion list).  Library code that is not part of the two source
files (bitvector constructors, the smt expression parser, the
simplification passes, the z-encoding codec, the event model) is either
modelled from the specification (marked `Modelled from the spec:`) or kept
abstract as a function parameter.
-/

/- ## Bitvectors (B129)

Modelled from the spec: the driver uses a 129-bit-capable bitvector type
from the library (not part of the source files); we model a bitvector as a
length together with a value below 2 ^ length is not enforced structurally,
only the constructors used by the driver are modelled. -/

structure B129 where
  len : Nat
  val : Nat
deriving DecidableEq, Repr

def B129.from_u16 (n : Nat) : B129 := ⟨16, n % 2 ^ 16⟩

def B129.from_u32 (n : Nat) : B129 := ⟨32, n % 2 ^ 32⟩

/-- Modelled from the spec: `B129::from_bytes` builds a bitvector of
8 * n bits from n raw bytes; the fold order is the library's, and no claim
depends on it — only on the fact that the endianness flag is not consulted. -/
def B129.from_bytes (bs : List Nat) : B129 :=
  ⟨8 * bs.length, bs.foldl (fun acc b => acc * 256 + b % 256) 0⟩

/- ## hex_bytes (src/footprint.rs lines 65-67)

Rust: `(0..s.len()).step_by(2).map(|i| u8::from_str_radix(&s[i..i+2], 16)).collect()`.
The iterator is driven in order by `collect`, which short-circuits at the
first `Err`.  When a single character remains, the slice `s[i..i+2]` is out
of bounds and the program panics (a Rust abort, not the driver's exit-1
diagnostic path). -/

def hexDigit? (c : Char) : Option Nat :=
  if '0' ≤ c ∧ c ≤ '9' then some (c.toNat - '0'.toNat)
  else if 'a' ≤ c ∧ c ≤ 'f' then some (c.toNat - 'a'.toNat + 10)
  else if 'A' ≤ c ∧ c ≤ 'F' then some (c.toNat - 'A'.toNat + 10)
  else none

inductive HexResult where
  | ok (bytes : List Nat)
  | parseError
  | panicked
deriving DecidableEq, Repr

def hex_bytes : List Char → HexResult
  | [] => .ok []
  | [_] => .panicked
  | c1 :: c2 :: rest =>
    match hexDigit? c1, hexDigit? c2 with
    | some a, some b =>
      match hex_bytes rest with
      | .ok bs => .ok ((16 * a + b) :: bs)
      | .parseError => .parseError
      | .panicked => .panicked
    | _, _ => .parseError

/- ## opcode_bytes (src/footprint.rs lines 138-153) -/

def u16_from_le_bytes (b0 b1 : Nat) : Nat := b0 % 256 + 256 * (b1 % 256)

def u16_from_be_bytes (b0 b1 : Nat) : Nat := b1 % 256 + 256 * (b0 % 256)

def u32_from_le_bytes (b0 b1 b2 b3 : Nat) : Nat :=
  b0 % 256 + 256 * (b1 % 256) + 65536 * (b2 % 256) + 16777216 * (b3 % 256)

def u32_from_be_bytes (b0 b1 b2 b3 : Nat) : Nat :=
  b3 % 256 + 256 * (b2 % 256) + 65536 * (b1 % 256) + 16777216 * (b0 % 256)

/-- The opcode_bytes helper: a length greater than 8 prints a diagnostic and exits 1
(modelled as `Except.error` carrying the message); 2- and 4-byte opcodes
are assembled via `u16::from_le_bytes` / `u16::from_be_bytes` (resp. u32)
according to the endianness flag; every other length uses `B129::from_bytes`
on the raw bytes. -/
def opcode_bytes (opcode : List Nat) (little_endian : Bool) : Except String B129 :=
  if opcode.length > 8 then
    .error "Currently instructions greater than 8 bytes in length are not supported"
  else
    match opcode with
    | [b0, b1] =>
      .ok (B129.from_u16 (if little_endian then u16_from_le_bytes b0 b1 else u16_from_be_bytes b0 b1))
    | [b0, b1, b2, b3] =>
      .ok (B129.from_u32 (if little_endian then u32_from_le_bytes b0 b1 b2 b3 else u32_from_be_bytes b0 b1 b2 b3))
    | bs => .ok (B129.from_bytes bs)

/- ## Endianness flag (src/footprint.rs lines 178-185) -/

def parse_endianness (arg : Option String) : Except String Bool :=
  match arg with
  | none => .ok true
  | some s =>
    if s = "little" then .ok true
    else if s = "big" then .ok false
    else .error "--endianness argument must be one of either big or little"

/- ## Instruction segments and the --partial parser
   (src/footprint.rs lines 69-73 and 189-206) -/

inductive InstructionSegment where
  | Concrete (bv : B129)
  | Symbolic (name : String) (size : Nat)
deriving DecidableEq, Repr

/-- Rust `char::is_ascii_whitespace` (space, tab, newline, form feed,
carriage return), used by `split_ascii_whitespace`. -/
def asciiWhitespace (c : Char) : Bool :=
  c = ' ' || c = '\t' || c = '\n' || c = '\x0c' || c = '\r'

def splitWsAux : List Char → List Char → List (List Char)
  | [], acc => if acc.isEmpty then [] else [acc.reverse]
  | c :: rest, acc =>
    if asciiWhitespace c then
      if acc.isEmpty then splitWsAux rest [] else acc.reverse :: splitWsAux rest []
    else splitWsAux rest (c :: acc)

def splitWs (s : List Char) : List (List Char) := splitWsAux s []

def splitColonAux : List Char → List Char → List (List Char)
  | [], acc => [acc.reverse]
  | c :: rest, acc =>
    if c = ':' then acc.reverse :: splitColonAux rest [] else splitColonAux rest (c :: acc)

/-- Rust `s.split(BAD)` with a colon separator: always yields at least one
piece, keeps empty pieces. -/
def splitColon (s : List Char) : List (List Char) := splitColonAux s []

def binDigit (c : Char) : Bool := c = '0' || c = '1'

def binVal (s : List Char) : Nat :=
  s.foldl (fun a c => 2 * a + (if c = '1' then 1 else 0)) 0

/-- Modelled from the spec: `B129::from_str` applied to the string
`0b` ++ segment (library code, not in the source files) succeeds exactly on
a nonempty all-binary-digit segment of at most 129 bits. -/
def fromStrBin (s : List Char) : Option B129 :=
  if !s.isEmpty && s.all binDigit && s.length ≤ 129 then
    some ⟨s.length, binVal s⟩
  else none

def decDigit (c : Char) : Bool := '0' ≤ c ∧ c ≤ '9'

def decVal (s : List Char) : Nat :=
  s.foldl (fun a c => 10 * a + (c.toNat - '0'.toNat)) 0

/-- Rust `u32::from_str_radix(size, 10)`: nonempty digit string whose value
fits in a u32. -/
def parseDecimalU32 (s : List Char) : Option Nat :=
  if !s.isEmpty && s.all decDigit && decVal s < 2 ^ 32 then some (decVal s) else none

/-- One segment of a `--partial` instruction: first try a binary bit
pattern, otherwise split on `:` and parse `name:size` (extra pieces after
the second are ignored, as with the source's iterator). -/
def parseSegment (s : List Char) : Option InstructionSegment :=
  match fromStrBin s with
  | some bv => some (.Concrete bv)
  | none =>
    match splitColon s with
    | name :: size :: _ => (parseDecimalU32 size).map (fun w => .Symbolic (String.mk name) w)
    | _ => none

/- ## The driver's instruction-argument decode (src/footprint.rs lines 189-223) -/

inductive DecodeOutcome where
  | ok (segs : List InstructionSegment)
  | exited (code : Nat) (msg : String)
  | panicked
deriving DecidableEq, Repr

def decodeSegsAux : List (List Char) → List InstructionSegment → DecodeOutcome
  | [], acc => .ok acc.reverse
  | t :: rest, acc =>
    match parseSegment t with
    | some seg => decodeSegsAux rest (seg :: acc)
    | none => .exited 1 ("Unable to parse instruction segment " ++ String.mk t)

def decodeHex (little_endian : Bool) (s : String) : DecodeOutcome :=
  match hex_bytes s.data with
  | .panicked => .panicked
  | .parseError => .exited 1 "Could not parse hexadecimal opcode"
  | .ok bytes =>
    match opcode_bytes bytes little_endian with
    | .error m => .exited 1 m
    | .ok bv => .ok [.Concrete bv]

/-- The instruction-argument decode in `isla_main`: `--partial` first, then
`--hex`, otherwise the external assembler (`assemble_instruction`, kept
abstract). -/
def parseInstrArg (partialFlag hexFlag : Bool) (asm : String → Except String (List Nat))
    (little_endian : Bool) (s : String) : DecodeOutcome :=
  if partialFlag then decodeSegsAux (splitWs s.data) []
  else if hexFlag then decodeHex little_endian s
  else
    match asm s with
    | .ok bytes =>
      match opcode_bytes bytes little_endian with
      | .error m => .exited 1 m
      | .ok bv => .ok [.Concrete bv]
    | .error m => .exited 1 m

def asmUnavailable : String → Except String (List Nat) := fun _ => .error "assembler unavailable"

/- ## Claim C3 / C4 theorems -/

/-- C3: the claim says every non-byte-pair hex string under `--hex` is
reported on standard error with exit code 1.  The code's error path does
exactly that for even-length invalid input, but `hex_bytes` slices
`s[i..i+2]` without a length check, so an odd-length hex string such as
"abc" hits an out-of-bounds byte index and panics (Rust abort, exit code
101, no driver diagnostic) instead of exiting 1.  The other encoding
errors named by the claim (unparsable `--partial` segment, opcode longer
than 8 bytes) do follow the diagnostic-plus-exit-1 path. -/
theorem odd_hex_panics_not_exit1 :
    parseInstrArg false true asmUnavailable true "abc" = DecodeOutcome.panicked
    ∧ (∀ c m, parseInstrArg false true asmUnavailable true "abc" ≠ DecodeOutcome.exited c m)
    ∧ parseInstrArg false true asmUnavailable true "ax"
        = DecodeOutcome.exited 1 "Could not parse hexadecimal opcode"
    ∧ parseInstrArg true false asmUnavailable true "0101 rd"
        = DecodeOutcome.exited 1 "Unable to parse instruction segment rd"
    ∧ parseInstrArg false true asmUnavailable true "001122334455667788"
        = DecodeOutcome.exited 1
            "Currently instructions greater than 8 bytes in length are not supported" := by
  refine ⟨by decide, ?_, by decide, by decide, by decide⟩
  intro c m h
  have : parseInstrArg false true asmUnavailable true "abc" = DecodeOutcome.panicked := by decide
  rw [this] at h
  exact DecodeOutcome.noConfusion h

/-- The byte-assembly behavior as the claim states it: 2-byte and 4-byte
opcodes use the endianness flag (byte 0 least significant when little),
every other length at most 8 uses the raw bytes and ignores the flag. -/
def opcode_bytes_claim (opcode : List Nat) (little_endian : Bool) : Except String B129 :=
  if opcode.length > 8 then
    .error "Currently instructions greater than 8 bytes in length are not supported"
  else if opcode.length = 2 then
    .ok (B129.from_u16
      (if little_endian then
        opcode.getD 0 0 % 256 + 256 * (opcode.getD 1 0 % 256)
      else
        opcode.getD 1 0 % 256 + 256 * (opcode.getD 0 0 % 256)))
  else if opcode.length = 4 then
    .ok (B129.from_u32
      (if little_endian then
        opcode.getD 0 0 % 256 + 256 * (opcode.getD 1 0 % 256)
          + 65536 * (opcode.getD 2 0 % 256) + 16777216 * (opcode.getD 3 0 % 256)
      else
        opcode.getD 3 0 % 256 + 256 * (opcode.getD 2 0 % 256)
          + 65536 * (opcode.getD 1 0 % 256) + 16777216 * (opcode.getD 0 0 % 256)))
  else .ok (B129.from_bytes opcode)

/-- C4: `opcode_bytes` agrees with the claim's description of the byte
assembly for every byte list and flag value (in particular, for lengths
other than 2 and 4 the result does not depend on the endianness flag,
since `opcode_bytes_claim` never consults it there), and the
`--endianness` argument is parsed as little by default, little/big
explicitly, with any other value rejected with a diagnostic (exit 1). -/
theorem opcode_bytes_endianness :
    (∀ (opcode : List Nat) (le : Bool), opcode_bytes opcode le = opcode_bytes_claim opcode le)
    ∧ parse_endianness none = .ok true
    ∧ parse_endianness (some "little") = .ok true
    ∧ parse_endianness (some "big") = .ok false
    ∧ (∀ s : String, s ≠ "little" → s ≠ "big" →
        parse_endianness (some s)
          = .error "--endianness argument must be one of either big or little") := by
  refine ⟨?_, rfl, rfl, rfl, ?_⟩
  · intro opcode le
    rcases opcode with _ | ⟨b0, _ | ⟨b1, _ | ⟨b2, _ | ⟨b3, _ | ⟨b4, rest⟩⟩⟩⟩⟩ <;>
      simp [opcode_bytes, opcode_bytes_claim, u16_from_le_bytes, u16_from_be_bytes,
        u32_from_le_bytes, u32_from_be_bytes]
  · intro s h1 h2
    simp [parse_endianness, h1, h2]

/- ## z-encoding (isla-lib zencode, not among the source files) -/

def hexCharOfNat (n : Nat) : Char :=
  if n < 10 then Char.ofNat ('0'.toNat + n) else Char.ofNat ('a'.toNat + (n - 10))

/-- Modelled from the spec: the symbol-name codec z-encodes an identifier
by prefixing `z` and escaping: `z` becomes `zz`, other alphanumeric or
underscore characters stay, anything else becomes `z` plus two hex digits. -/
def zencodeEscape (c : Char) : List Char :=
  if c = 'z' then ['z', 'z']
  else if c.isAlphanum || c = '_' then [c]
  else 'z' :: [hexCharOfNat (c.toNat / 16 % 16), hexCharOfNat (c.toNat % 16)]

def zencode_encode (s : String) : String :=
  ⟨'z' :: s.data.foldr (fun c acc => zencodeEscape c ++ acc) []⟩

def zdecodeAux : List Char → List Char
  | [] => []
  | 'z' :: 'z' :: rest => 'z' :: zdecodeAux rest
  | 'z' :: c1 :: c2 :: rest =>
    match hexDigit? c1, hexDigit? c2 with
    | some a, some b => Char.ofNat (16 * a + b) :: zdecodeAux rest
    | _, _ => 'z' :: zdecodeAux (c1 :: c2 :: rest)
  | c :: rest => c :: zdecodeAux rest

/-- Modelled from the spec: the inverse direction of the symbol-name
codec, used by the constraint lookup to map a constraint name back to a
partial-instruction field name. -/
def zencode_decode (s : String) : String :=
  match s.data with
  | 'z' :: rest => ⟨zdecodeAux rest⟩
  | l => ⟨l⟩

/- ## SMT expressions and the instruction-constraint input
   (smt_parser is library code; modelled from the spec) -/

inductive SmtExp where
  | var (v : Nat)
  | bits (bv : B129)
  | neg (e : SmtExp)
  | conj (e1 e2 : SmtExp)
  | eq (e1 e2 : SmtExp)
deriving DecidableEq, Repr

/-- The `Loc` argument fed to the driver's lookup closure: a plain name or
some other location form (field access etc.), which the closure rejects. -/
inductive Loc where
  | id (name : String)
  | other (desc : String)
deriving DecidableEq, Repr

/-- Modelled from the spec: a constraint expression over
partial-instruction field names, as produced by the expression grammar
before name resolution. -/
inductive ExpS where
  | atom (l : Loc)
  | bits (bv : B129)
  | neg (e : ExpS)
  | conj (e1 e2 : ExpS)
  | eq (e1 e2 : ExpS)
deriving DecidableEq, Repr

/-- A raw `--instruction-constraint` argument: `none` stands for a string
the expression grammar cannot parse at all, `some e` for one that parses
to `e` (name resolution still pending). -/
abbrev ConstraintInput := Option ExpS

/- ## Solver session (modelled from the spec, section 4.1) -/

/-- Modelled from the spec: one incremental SMT session: a monotonically
increasing fresh-variable counter, the declarations made (variable id and
bitvector width, in order), and the asserted expressions, in order.
`smt::checkpoint` captures exactly this state. -/
structure Solver where
  nextVar : Nat
  decls : List (Nat × Nat)
  asserts : List SmtExp
deriving DecidableEq, Repr

def Solver.fresh : Solver := ⟨0, [], []⟩

def Solver.declare_const (s : Solver) (width : Nat) : Nat × Solver :=
  (s.nextVar, ⟨s.nextVar + 1, s.decls ++ [(s.nextVar, width)], s.asserts⟩)

def Solver.addAssert (s : Solver) (e : SmtExp) : Solver :=
  ⟨s.nextVar, s.decls, s.asserts ++ [e]⟩

/- ## instruction_to_val (src/footprint.rs lines 92-136) -/

abbrev VarMap := List (String × Nat × Nat)

def lookupVarMap : VarMap → String → Option (Nat × Nat)
  | [], _ => none
  | (n, p) :: rest, key => if n = key then some p else lookupVarMap rest key

/-- The lookup closure passed to the constraint parser (lines 122-128):
only plain names are accepted; the name is z-decoded and looked up in the
field-variable map built while translating the segments. -/
def lookupLoc (m : VarMap) : Loc → Except String SmtExp
  | .id name =>
    match lookupVarMap m (zencode_decode name) with
    | some (_, v) => .ok (.var v)
    | none => .error ("No variable " ++ name ++ " in constraint")
  | .other d => .error ("Only names can appear in instruction constraints, not " ++ d)

/-- Modelled from the spec: the expression parser resolves every name in
the expression through the supplied lookup, failing if the lookup fails. -/
def parseExpS (m : VarMap) : ExpS → Except String SmtExp
  | .atom l => lookupLoc m l
  | .bits bv => .ok (.bits bv)
  | .neg e =>
    match parseExpS m e with
    | .ok r => .ok (.neg r)
    | .error msg => .error msg
  | .conj e1 e2 =>
    match parseExpS m e1 with
    | .error msg => .error msg
    | .ok r1 =>
      match parseExpS m e2 with
      | .error msg => .error msg
      | .ok r2 => .ok (.conj r1 r2)
  | .eq e1 e2 =>
    match parseExpS m e1 with
    | .error msg => .error msg
    | .ok r1 =>
      match parseExpS m e2 with
      | .error msg => .error msg
      | .ok r2 => .ok (.eq r1 r2)

/-- One constraint argument through
`ExpParser::new().parse(&mut lookup, &constraint).expect(BAD)`: a string
the grammar rejects, or one whose name resolution fails, panics with the
`expect` message — modelled as an error that aborts the setup. -/
def parseConstraint (m : VarMap) : ConstraintInput → Except String SmtExp
  | none => .error "Bad instruction constraint"
  | some e =>
    match parseExpS m e with
    | .ok r => .ok r
    | .error _ => .error "Bad instruction constraint"

/-- One segment of a mixed-bits runtime value: a concrete bit run or a
reference to a solver-declared variable. -/
inductive BitsSegment where
  | Concrete (bv : B129)
  | Symbolic (v : Nat)
deriving DecidableEq, Repr

/-- The runtime-value variants the driver produces: a concrete bitvector
or a mixed-bits sequence of segments. -/
inductive Val where
  | Bits (bv : B129)
  | MixedBits (segs : List BitsSegment)
deriving DecidableEq, Repr

/-- The segment-to-value translation loop (lines 98-119): a concrete
segment stays concrete; a symbolic segment reuses the variable recorded
for its name when the recorded width agrees, panics when it disagrees, and
otherwise declares a fresh solver variable and records it. -/
def segsLoop : List InstructionSegment → VarMap → Solver →
    Except String (List BitsSegment × VarMap × Solver)
  | [], m, s => .ok ([], m, s)
  | .Concrete bv :: rest, m, s =>
    match segsLoop rest m s with
    | .ok (t, m', s') => .ok (.Concrete bv :: t, m', s')
    | .error e => .error e
  | .Symbolic name size :: rest, m, s =>
    match lookupVarMap m name with
    | some (size2, v) =>
      if size = size2 then
        match segsLoop rest m s with
        | .ok (t, m', s') => .ok (.Symbolic v :: t, m', s')
        | .error e => .error e
      else .error (name ++ " appears in instruction with different sizes")
    | none =>
      let vs := s.declare_const size
      match segsLoop rest ((name, size, vs.1) :: m) vs.2 with
      | .ok (t, m', s') => .ok (.Symbolic vs.1 :: t, m', s')
      | .error e => .error e

def assertConstraints (m : VarMap) : List ConstraintInput → Solver → Except String Solver
  | [], s => .ok s
  | c :: rest, s =>
    match parseConstraint m c with
    | .ok e => assertConstraints m rest (s.addAssert e)
    | .error msg => .error msg

/-- The instruction_to_val translation: a single concrete segment short-circuits to a
plain bitvector value (note: without touching the constraint list); any
other shape builds a mixed-bits value and then parses and asserts each
`--instruction-constraint` argument. -/
def instruction_to_val (opcode : List InstructionSegment)
    (constraints : List ConstraintInput) (s : Solver) : Except String (Val × Solver) :=
  match opcode with
  | [.Concrete bv] => .ok (.Bits bv, s)
  | _ =>
    match segsLoop opcode [] s with
    | .error e => .error e
    | .ok (segs, m, s1) =>
      match assertConstraints m constraints s1 with
      | .error e => .error e
      | .ok s2 => .ok (.MixedBits segs, s2)

/-- The initial-checkpoint block (lines 262-268): a fresh solver session,
`instruction_to_val`, then `smt::checkpoint` — the checkpoint is the full
session state after the translation, taken before any execution task is
built. -/
def setupStage (opcode : List InstructionSegment) (constraints : List ConstraintInput) :
    Except String (Solver × Val) :=
  match instruction_to_val opcode constraints Solver.fresh with
  | .ok (v, s') => .ok (s', v)
  | .error e => .error e

def exceptIsOk {α : Type _} : Except String α → Bool
  | .ok _ => true
  | .error _ => false

/- ## Lemmas about the segment-translation loop -/

theorem segsLoop_extends :
    ∀ (opcode : List InstructionSegment) (m : VarMap) (s : Solver) segs m' s',
      segsLoop opcode m s = .ok (segs, m', s') →
      ∀ n x, lookupVarMap m n = some x → lookupVarMap m' n = some x := by
  intro opcode
  induction opcode with
  | nil =>
    intro m s segs m' s' h n x hx
    simp only [segsLoop] at h
    cases h
    exact hx
  | cons seg rest ih =>
    intro m s segs m' s' h n x hx
    cases seg with
    | Concrete bv =>
      simp only [segsLoop] at h
      cases hr : segsLoop rest m s with
      | error e => rw [hr] at h; cases h
      | ok triple =>
        obtain ⟨t, m1, s1⟩ := triple
        rw [hr] at h
        cases h
        exact ih m s t m' s' hr n x hx
    | Symbolic name size =>
      simp only [segsLoop] at h
      cases hl : lookupVarMap m name with
      | some p =>
        obtain ⟨size2, v⟩ := p
        rw [hl] at h
        by_cases hsz : size = size2
        · simp only [if_pos hsz] at h
          cases hr : segsLoop rest m s with
          | error e => rw [hr] at h; cases h
          | ok triple =>
            obtain ⟨t, m1, s1⟩ := triple
            rw [hr] at h
            cases h
            exact ih m s t m' s' hr n x hx
        · simp only [if_neg hsz] at h
          cases h
      | none =>
        rw [hl] at h
        simp only [] at h
        cases hr : segsLoop rest ((name, size, (s.declare_const size).1) :: m) (s.declare_const size).2 with
        | error e => rw [hr] at h; cases h
        | ok triple =>
          obtain ⟨t, m1, s1⟩ := triple
          rw [hr] at h
          cases h
          have hne : name ≠ n := by
            intro he
            rw [he] at hl
            rw [hl] at hx
            cases hx
          refine ih _ _ t m' s' hr n x ?_
          simp only [lookupVarMap, if_neg hne]
          exact hx

theorem segsLoop_spec :
    ∀ (opcode : List InstructionSegment) (m : VarMap) (s : Solver) segs m' s',
      segsLoop opcode m s = .ok (segs, m', s') →
      segs.length = opcode.length
      ∧ (∀ i n w, opcode.get? i = some (.Symbolic n w) →
          ∃ v, segs.get? i = some (.Symbolic v) ∧ lookupVarMap m' n = some (w, v))
      ∧ (∀ i bv, opcode.get? i = some (.Concrete bv) → segs.get? i = some (.Concrete bv)) := by
  intro opcode
  induction opcode with
  | nil =>
    intro m s segs m' s' h
    simp only [segsLoop] at h
    cases h
    refine ⟨rfl, ?_, ?_⟩
    · intro i n w hi; exact Option.noConfusion hi
    · intro i bv hi; exact Option.noConfusion hi
  | cons seg rest ih =>
    intro m s segs m' s' h
    cases seg with
    | Concrete bv =>
      simp only [segsLoop] at h
      cases hr : segsLoop rest m s with
      | error e => rw [hr] at h; cases h
      | ok triple =>
        obtain ⟨t, m1, s1⟩ := triple
        rw [hr] at h
        cases h
        obtain ⟨hlen, hsym, hconc⟩ := ih m s t m' s' hr
        refine ⟨by simp [hlen], ?_, ?_⟩
        · intro i n w hi
          cases i with
          | zero => simp at hi
          | succ i => exact hsym i n w hi
        · intro i bv2 hi
          cases i with
          | zero => simp at hi; simp [hi]
          | succ i => exact hconc i bv2 hi
    | Symbolic name size =>
      simp only [segsLoop] at h
      cases hl : lookupVarMap m name with
      | some p =>
        obtain ⟨size2, v⟩ := p
        rw [hl] at h
        by_cases hsz : size = size2
        · subst hsz
          simp only [if_pos rfl] at h
          cases hr : segsLoop rest m s with
          | error e => rw [hr] at h; cases h
          | ok triple =>
            obtain ⟨t, m1, s1⟩ := triple
            rw [hr] at h
            cases h
            obtain ⟨hlen, hsym, hconc⟩ := ih m s t m' s' hr
            refine ⟨by simp [hlen], ?_, ?_⟩
            · intro i n w hi
              cases i with
              | zero =>
                simp at hi
                obtain ⟨hn, hw⟩ := hi
                refine ⟨v, rfl, ?_⟩
                rw [← hn, ← hw]
                exact segsLoop_extends rest m s t m' s' hr name _ hl
              | succ i => exact hsym i n w hi
            · intro i bv2 hi
              cases i with
              | zero => simp at hi
              | succ i => exact hconc i bv2 hi
        · simp only [if_neg hsz] at h
          cases h
      | none =>
        rw [hl] at h
        simp only [] at h
        cases hr : segsLoop rest ((name, size, (s.declare_const size).1) :: m) (s.declare_const size).2 with
        | error e => rw [hr] at h; cases h
        | ok triple =>
          obtain ⟨t, m1, s1⟩ := triple
          rw [hr] at h
          cases h
          obtain ⟨hlen, hsym, hconc⟩ := ih _ _ t m' s' hr
          refine ⟨by simp [hlen], ?_, ?_⟩
          · intro i n w hi
            cases i with
            | zero =>
              simp at hi
              obtain ⟨hn, hw⟩ := hi
              refine ⟨(s.declare_const size).1, rfl, ?_⟩
              rw [← hn, ← hw]
              refine segsLoop_extends _ _ _ t m' s' hr name _ ?_
              simp [lookupVarMap]
            | succ i => exact hsym i n w hi
          · intro i bv2 hi
            cases i with
            | zero => simp at hi
            | succ i => exact hconc i bv2 hi

/-- Well-formed solver session: every declared variable id is below the
fresh counter and no variable is declared twice. -/
def SolverWf (s : Solver) : Prop :=
  (∀ p ∈ s.decls, Prod.fst p < s.nextVar) ∧ (s.decls.map Prod.fst).Nodup

theorem segsLoop_solver :
    ∀ (opcode : List InstructionSegment) (m : VarMap) (s : Solver) segs m' s',
      segsLoop opcode m s = .ok (segs, m', s') →
      (∃ ext, s'.decls = s.decls ++ ext) ∧ s'.asserts = s.asserts
      ∧ (SolverWf s → SolverWf s')
      ∧ ((∀ n w v, lookupVarMap m n = some (w, v) → (v, w) ∈ s.decls) →
          ∀ n w v, lookupVarMap m' n = some (w, v) → (v, w) ∈ s'.decls) := by
  intro opcode
  induction opcode with
  | nil =>
    intro m s segs m' s' h
    simp only [segsLoop] at h
    cases h
    exact ⟨⟨[], by simp⟩, rfl, fun hw => hw, fun hm => hm⟩
  | cons seg rest ih =>
    intro m s segs m' s' h
    cases seg with
    | Concrete bv =>
      simp only [segsLoop] at h
      cases hr : segsLoop rest m s with
      | error e => rw [hr] at h; cases h
      | ok triple =>
        obtain ⟨t, m1, s1⟩ := triple
        rw [hr] at h
        cases h
        exact ih m s t m' s' hr
    | Symbolic name size =>
      simp only [segsLoop] at h
      cases hl : lookupVarMap m name with
      | some p =>
        obtain ⟨size2, v⟩ := p
        rw [hl] at h
        by_cases hsz : size = size2
        · subst hsz
          simp only [if_pos rfl] at h
          cases hr : segsLoop rest m s with
          | error e => rw [hr] at h; cases h
          | ok triple =>
            obtain ⟨t, m1, s1⟩ := triple
            rw [hr] at h
            cases h
            exact ih m s t m' s' hr
        · simp only [if_neg hsz] at h
          cases h
      | none =>
        rw [hl] at h
        simp only [] at h
        cases hr : segsLoop rest ((name, size, (s.declare_const size).1) :: m) (s.declare_const size).2 with
        | error e => rw [hr] at h; cases h
        | ok triple =>
          obtain ⟨t, m1, s1⟩ := triple
          rw [hr] at h
          cases h
          obtain ⟨⟨ext, hext⟩, hasrt, hwf, hmap⟩ := ih _ _ t m' s' hr
          simp only [Solver.declare_const] at hext hasrt hwf hmap
          refine ⟨⟨(s.nextVar, size) :: ext, by simp [hext]⟩, hasrt, ?_, ?_⟩
          · intro hs
            refine hwf ?_
            obtain ⟨hlt, hnd⟩ := hs
            constructor
            · intro p hp
              simp at hp
              rcases hp with hp | hp
              · exact Nat.lt_succ_of_lt (hlt p hp)
              · simp [hp]
            · simp only [List.map_append, List.map_cons, List.map_nil]
              rw [List.nodup_append]
              refine ⟨hnd, List.nodup_singleton _, ?_⟩
              intro a ha hb
              simp at hb
              subst hb
              simp only [List.mem_map] at ha
              obtain ⟨p, hp, hfst⟩ := ha
              have := hlt p hp
              rw [hfst] at this
              exact Nat.lt_irrefl _ this
          · intro hm
            refine hmap ?_
            intro n w v hv
            by_cases hn : name = n
            · subst hn
              simp only [lookupVarMap, if_pos rfl] at hv
              cases hv
              simp
            · simp only [lookupVarMap, if_neg hn] at hv
              simp [hm n w v hv]

theorem segsLoop_domain :
    ∀ (opcode : List InstructionSegment) (m : VarMap) (s : Solver) segs m' s',
      segsLoop opcode m s = .ok (segs, m', s') →
      ∀ n, (lookupVarMap m' n).isSome = true →
        (lookupVarMap m n).isSome = true ∨ ∃ w, InstructionSegment.Symbolic n w ∈ opcode := by
  intro opcode
  induction opcode with
  | nil =>
    intro m s segs m' s' h n hn
    simp only [segsLoop] at h
    cases h
    exact Or.inl hn
  | cons seg rest ih =>
    intro m s segs m' s' h n hn
    cases seg with
    | Concrete bv =>
      simp only [segsLoop] at h
      cases hr : segsLoop rest m s with
      | error e => rw [hr] at h; cases h
      | ok triple =>
        obtain ⟨t, m1, s1⟩ := triple
        rw [hr] at h
        cases h
        rcases ih m s t m' s' hr n hn with hl | ⟨w, hw⟩
        · exact Or.inl hl
        · exact Or.inr ⟨w, List.mem_cons_of_mem _ hw⟩
    | Symbolic name size =>
      simp only [segsLoop] at h
      cases hl : lookupVarMap m name with
      | some p =>
        obtain ⟨size2, v⟩ := p
        rw [hl] at h
        by_cases hsz : size = size2
        · subst hsz
          simp only [if_pos rfl] at h
          cases hr : segsLoop rest m s with
          | error e => rw [hr] at h; cases h
          | ok triple =>
            obtain ⟨t, m1, s1⟩ := triple
            rw [hr] at h
            cases h
            rcases ih m s t m' s' hr n hn with hle | ⟨w, hw⟩
            · exact Or.inl hle
            · exact Or.inr ⟨w, List.mem_cons_of_mem _ hw⟩
        · simp only [if_neg hsz] at h
          cases h
      | none =>
        rw [hl] at h
        simp only [] at h
        cases hr : segsLoop rest ((name, size, (s.declare_const size).1) :: m) (s.declare_const size).2 with
        | error e => rw [hr] at h; cases h
        | ok triple =>
          obtain ⟨t, m1, s1⟩ := triple
          rw [hr] at h
          cases h
          rcases ih _ _ t m' s' hr n hn with hle | ⟨w, hw⟩
          · by_cases hne : name = n
            · exact Or.inr ⟨size, by rw [hne]; exact List.mem_cons_self _ _⟩
            · simp only [lookupVarMap, if_neg hne] at hle
              exact Or.inl hle
          · exact Or.inr ⟨w, List.mem_cons_of_mem _ hw⟩

/- ## Lemmas about constraint parsing and assertion -/

/-- Name-resolve every constraint in order, stopping at the first failure;
this is what a successful `assertConstraints` run amounts to. -/
def parseAll (m : VarMap) : List ConstraintInput → Except String (List SmtExp)
  | [] => .ok []
  | c :: rest =>
    match parseConstraint m c with
    | .error e => .error e
    | .ok r =>
      match parseAll m rest with
      | .error e => .error e
      | .ok rs => .ok (r :: rs)

theorem assertConstraints_spec :
    ∀ (cs : List ConstraintInput) (m : VarMap) (s s' : Solver),
      assertConstraints m cs s = .ok s' →
      ∃ es, parseAll m cs = .ok es
        ∧ s' = ⟨s.nextVar, s.decls, s.asserts ++ es⟩ := by
  intro cs
  induction cs with
  | nil =>
    intro m s s' h
    simp only [assertConstraints] at h
    cases h
    exact ⟨[], rfl, by simp [parseAll]⟩
  | cons c rest ih =>
    intro m s s' h
    simp only [assertConstraints] at h
    cases hp : parseConstraint m c with
    | error e => rw [hp] at h; cases h
    | ok r =>
      rw [hp] at h
      obtain ⟨es, hes, hs⟩ := ih m (s.addAssert r) s' h
      refine ⟨r :: es, ?_, ?_⟩
      · simp only [parseAll, hp, hes]
      · rw [hs]
        simp [Solver.addAssert]

theorem parseAll_mem :
    ∀ (cs : List ConstraintInput) (m : VarMap) (es : List SmtExp),
      parseAll m cs = .ok es → ∀ c ∈ cs, ∃ r, parseConstraint m c = .ok r := by
  intro cs
  induction cs with
  | nil => intro m es _ c hc; cases hc
  | cons c0 rest ih =>
    intro m es h c hc
    simp only [parseAll] at h
    cases hp : parseConstraint m c0 with
    | error e => rw [hp] at h; cases h
    | ok r =>
      rw [hp] at h
      cases hr : parseAll m rest with
      | error e => rw [hr] at h; cases h
      | ok rs =>
        rcases List.mem_cons.mp hc with hc | hc
        · exact ⟨r, by rw [hc]; exact hp⟩
        · exact ih m rs hr c hc

/-- The field names a raw constraint expression mentions through its
plain-name atoms. -/
def mentionsId : ExpS → String → Bool
  | .atom (.id name), nm => name = nm
  | .atom (.other _), _ => false
  | .bits _, _ => false
  | .neg e, nm => mentionsId e nm
  | .conj e1 e2, nm => mentionsId e1 nm || mentionsId e2 nm
  | .eq e1 e2, nm => mentionsId e1 nm || mentionsId e2 nm

theorem parseExpS_names :
    ∀ (e : ExpS) (m : VarMap) (r : SmtExp), parseExpS m e = .ok r →
      ∀ nm, mentionsId e nm = true → (lookupVarMap m (zencode_decode nm)).isSome = true := by
  intro e
  induction e with
  | atom l =>
    intro m r h nm hm
    cases l with
    | id name =>
      simp only [mentionsId, decide_eq_true_eq] at hm
      subst hm
      simp only [parseExpS, lookupLoc] at h
      cases hl : lookupVarMap m (zencode_decode name) with
      | some p => simp [hl]
      | none => rw [hl] at h; cases h
    | other d => simp [mentionsId] at hm
  | bits bv => intro m r h nm hm; simp [mentionsId] at hm
  | neg e ihe =>
    intro m r h nm hm
    simp only [mentionsId] at hm
    simp only [parseExpS] at h
    cases hp : parseExpS m e with
    | error msg => rw [hp] at h; cases h
    | ok r1 => exact ihe m r1 hp nm hm
  | conj e1 e2 ih1 ih2 =>
    intro m r h nm hm
    simp only [mentionsId, Bool.or_eq_true] at hm
    simp only [parseExpS] at h
    cases hp1 : parseExpS m e1 with
    | error msg => rw [hp1] at h; cases h
    | ok r1 =>
      cases hp2 : parseExpS m e2 with
      | error msg => rw [hp1, hp2] at h; cases h
      | ok r2 =>
        rcases hm with hm | hm
        · exact ih1 m r1 hp1 nm hm
        · exact ih2 m r2 hp2 nm hm
  | eq e1 e2 ih1 ih2 =>
    intro m r h nm hm
    simp only [mentionsId, Bool.or_eq_true] at hm
    simp only [parseExpS] at h
    cases hp1 : parseExpS m e1 with
    | error msg => rw [hp1] at h; cases h
    | ok r1 =>
      cases hp2 : parseExpS m e2 with
      | error msg => rw [hp1, hp2] at h; cases h
      | ok r2 =>
        rcases hm with hm | hm
        · exact ih1 m r1 hp1 nm hm
        · exact ih2 m r2 hp2 nm hm

theorem instruction_to_val_inv :
    ∀ (opcode : List InstructionSegment) (cs : List ConstraintInput) (s : Solver) v s',
      instruction_to_val opcode cs s = .ok (v, s') →
      (∃ bv, opcode = [InstructionSegment.Concrete bv] ∧ v = .Bits bv ∧ s' = s)
      ∨ (∃ segs m s1, segsLoop opcode [] s = .ok (segs, m, s1)
          ∧ assertConstraints m cs s1 = .ok s' ∧ v = .MixedBits segs) := by
  intro opcode cs s v s' h
  unfold instruction_to_val at h
  split at h
  · cases h
    exact Or.inl ⟨_, rfl, rfl, rfl⟩
  · cases hr : segsLoop opcode [] s with
    | error e => rw [hr] at h; cases h
    | ok triple =>
      obtain ⟨segs, m, s1⟩ := triple
      rw [hr] at h
      dsimp only at h
      cases ha : assertConstraints m cs s1 with
      | error e => rw [ha] at h; cases h
      | ok s2 =>
        rw [ha] at h
        cases h
        exact Or.inr ⟨segs, m, s1, rfl, ha, rfl⟩

/-- C9: for a partial instruction, occurrences of one field name with one
declared width share a single solver variable declared exactly once (the
declaration list of the session the checkpoint captures has no duplicate
variable ids and contains the shared variable's width), and a successful
translation forces all occurrences of a name to carry the same width — so
a name occurring with two different widths makes the translation abort
(the source's panic). -/
theorem partial_fields_single_var :
    ∀ (opcode : List InstructionSegment),
      (∀ n w w', InstructionSegment.Symbolic n w ∈ opcode →
          InstructionSegment.Symbolic n w' ∈ opcode → w ≠ w' →
          exceptIsOk (instruction_to_val opcode [] Solver.fresh) = false)
      ∧ (∀ segs s', instruction_to_val opcode [] Solver.fresh = .ok (Val.MixedBits segs, s') →
          (s'.decls.map Prod.fst).Nodup
          ∧ ∀ i j n w w', opcode.get? i = some (.Symbolic n w) →
              opcode.get? j = some (.Symbolic n w') →
              w = w' ∧ segs.get? i = segs.get? j
              ∧ ∃ v, segs.get? i = some (BitsSegment.Symbolic v) ∧ (v, w) ∈ s'.decls) := by
  intro opcode
  constructor
  · intro n w w' hw hw' hne
    cases hres : instruction_to_val opcode [] Solver.fresh with
    | error e => rfl
    | ok p =>
      exfalso
      obtain ⟨v, s'⟩ := p
      rcases instruction_to_val_inv opcode [] Solver.fresh v s' hres with
        ⟨bv, hop, -, -⟩ | ⟨segs, m, s1, hr, -, -⟩
      · rw [hop] at hw
        simp at hw
      · obtain ⟨i, hi⟩ := List.get?_of_mem hw
        obtain ⟨j, hj⟩ := List.get?_of_mem hw'
        obtain ⟨-, hsym, -⟩ := segsLoop_spec opcode [] Solver.fresh segs m s1 hr
        obtain ⟨vi, -, hli⟩ := hsym i n w hi
        obtain ⟨vj, -, hlj⟩ := hsym j n w' hj
        rw [hli] at hlj
        cases hlj
        exact hne rfl
  · intro segs s' h
    rcases instruction_to_val_inv opcode [] Solver.fresh (Val.MixedBits segs) s' h with
      ⟨bv, -, hv, -⟩ | ⟨segs0, m, s1, hr, ha, hv⟩
    · cases hv
    · cases hv
      simp only [assertConstraints] at ha
      cases ha
      obtain ⟨-, -, hwf, hmap⟩ :=
        segsLoop_solver opcode [] Solver.fresh segs m s' hr
      have hwf' := hwf ⟨(by intro p hp; cases hp), (by simp [Solver.fresh])⟩
      have hmap' := hmap (by intro n w v hv; cases hv)
      refine ⟨hwf'.2, ?_⟩
      intro i j n w w' hi hj
      obtain ⟨-, hsym, -⟩ := segsLoop_spec opcode [] Solver.fresh segs m s' hr
      obtain ⟨vi, hgi, hli⟩ := hsym i n w hi
      obtain ⟨vj, hgj, hlj⟩ := hsym j n w' hj
      rw [hli] at hlj
      cases hlj
      refine ⟨rfl, by rw [hgi, hgj], vi, hgi, ?_⟩
      exact hmap' n w vi hli

def op0 : List InstructionSegment := [.Symbolic "rd" 3, .Concrete ⟨1, 0⟩, .Symbolic "rd" 3]

def seg0 : List BitsSegment := [.Symbolic 0, .Concrete ⟨1, 0⟩, .Symbolic 0]

def sol0 : Solver := ⟨1, [(0, 3)], []⟩

/-- Witness for `partial_fields_single_var`: the partial instruction
`rd:3 0 rd:3` translates successfully, both occurrences of `rd` become the
one variable 0, and the session declares variable 0 exactly once. -/
theorem partial_fields_single_var_witness :
    instruction_to_val op0 [] Solver.fresh = Except.ok (Val.MixedBits seg0, sol0)
    ∧ (sol0.decls.map Prod.fst).Nodup
    ∧ seg0.get? 0 = seg0.get? 2 := by
  have h := (partial_fields_single_var op0).2 seg0 sol0 rfl
  exact ⟨rfl, h.1, (h.2 0 2 "rd" 3 3 rfl rfl).2.1⟩

/- ## Claim C2 -/

def bv4 : B129 := ⟨4, 5⟩

/-- C2 counterexample: with a single concrete opcode segment,
`instruction_to_val` returns on its first match arm, so even a malformed
`--instruction-constraint` argument (here: an unparsable string, modelled
as `none`) is never parsed, never asserted, and does not abort — the
returned session is the untouched fresh session with no assertion. -/
theorem concrete_opcode_ignores_constraints_cex :
    instruction_to_val [InstructionSegment.Concrete bv4] [(none : ConstraintInput)] Solver.fresh
      = Except.ok (Val.Bits bv4, Solver.fresh)
    ∧ Solver.fresh.asserts = [] :=
  ⟨rfl, rfl⟩

/-- C2 (amended): for every invocation whose decoded opcode is not a single
concrete segment, each constraint is parsed with the lookup over the
declared field names and asserted before the checkpoint is taken (a
successful setup's checkpoint records exactly the resolved constraints as
its assertion list), and a malformed constraint or a constraint naming an
undeclared field aborts the setup.  A single concrete opcode skips all of
this (see the counterexample). -/
theorem constraints_asserted_before_checkpoint :
    ∀ (opcode : List InstructionSegment) (cs : List ConstraintInput),
      (∀ bv, opcode ≠ [InstructionSegment.Concrete bv]) →
      (∀ cp v, setupStage opcode cs = .ok (cp, v) →
          ∃ segs m s1 es,
            segsLoop opcode [] Solver.fresh = .ok (segs, m, s1)
            ∧ parseAll m cs = .ok es
            ∧ cp.asserts = es
            ∧ v = Val.MixedBits segs)
      ∧ ((none : ConstraintInput) ∈ cs → exceptIsOk (setupStage opcode cs) = false)
      ∧ (∀ e nm, (some e : ConstraintInput) ∈ cs → mentionsId e nm = true →
          (∀ w, InstructionSegment.Symbolic (zencode_decode nm) w ∉ opcode) →
          exceptIsOk (setupStage opcode cs) = false) := by
  intro opcode cs hshape
  have hmain : ∀ cp v, setupStage opcode cs = .ok (cp, v) →
      ∃ segs m s1 es,
        segsLoop opcode [] Solver.fresh = .ok (segs, m, s1)
        ∧ parseAll m cs = .ok es
        ∧ cp.asserts = es
        ∧ v = Val.MixedBits segs := by
    intro cp v h
    unfold setupStage at h
    cases hi : instruction_to_val opcode cs Solver.fresh with
    | error e => rw [hi] at h; cases h
    | ok p =>
      obtain ⟨v1, s1⟩ := p
      rw [hi] at h
      cases h
      rcases instruction_to_val_inv opcode cs Solver.fresh v cp hi with
        ⟨bv, hop, -, -⟩ | ⟨segs, m, s0, hr, ha, hv⟩
      · exact absurd hop (hshape bv)
      · obtain ⟨es, hes, hs⟩ := assertConstraints_spec cs m s0 cp ha
        obtain ⟨-, hasrt, -, -⟩ := segsLoop_solver opcode [] Solver.fresh segs m s0 hr
        refine ⟨segs, m, s0, es, hr, hes, ?_, hv⟩
        rw [hs]
        simp [hasrt, Solver.fresh]
  refine ⟨hmain, ?_, ?_⟩
  · intro hnone
    cases hres : setupStage opcode cs with
    | error e => rfl
    | ok p =>
      exfalso
      obtain ⟨cp, v⟩ := p
      obtain ⟨segs, m, s1, es, -, hes, -, -⟩ := hmain cp v hres
      obtain ⟨r, hr⟩ := parseAll_mem cs m es hes none hnone
      cases hr
  · intro e nm hmem hment hnotin
    cases hres : setupStage opcode cs with
    | error e2 => rfl
    | ok p =>
      exfalso
      obtain ⟨cp, v⟩ := p
      obtain ⟨segs, m, s1, es, hsl, hes, -, -⟩ := hmain cp v hres
      obtain ⟨r, hr⟩ := parseAll_mem cs m es hes (some e) hmem
      simp only [parseConstraint] at hr
      cases hp : parseExpS m e with
      | error msg => rw [hp] at hr; cases hr
      | ok r2 =>
        have hsome := parseExpS_names e m r2 hp nm hment
        rcases segsLoop_domain opcode [] Solver.fresh segs m s1 hsl
            (zencode_decode nm) hsome with hemp | ⟨w, hw⟩
        · simp [lookupVarMap] at hemp
        · exact hnotin w hw

def opA : List InstructionSegment := [.Symbolic "rd" 3]

def csA : List ConstraintInput := [some (ExpS.eq (.atom (.id "zrd")) (.bits ⟨3, 2⟩))]

def cpA : Solver := ⟨1, [(0, 3)], [SmtExp.eq (.var 0) (.bits ⟨3, 2⟩)]⟩

/-- Witness for `constraints_asserted_before_checkpoint`: for the partial
instruction `rd:3` with the constraint `rd = 0b010`, the checkpoint taken
at setup carries exactly the resolved assertion; a malformed constraint
and a constraint over the undeclared name `xx` each abort the setup. -/
theorem constraints_asserted_before_checkpoint_witness :
    cpA.asserts = [SmtExp.eq (SmtExp.var 0) (SmtExp.bits ⟨3, 2⟩)]
    ∧ exceptIsOk (setupStage opA [(none : ConstraintInput)]) = false
    ∧ exceptIsOk (setupStage opA [some (ExpS.atom (Loc.id "zxx"))]) = false := by
  have hshape : ∀ bv, opA ≠ [InstructionSegment.Concrete bv] := by
    intro bv hb
    simp [opA] at hb
  obtain ⟨segs, m, s1, es, h1, h2, h3, -⟩ :=
    (constraints_asserted_before_checkpoint opA csA hshape).1 cpA
      (Val.MixedBits [.Symbolic 0]) rfl
  have h1' : (Except.ok ([BitsSegment.Symbolic 0], [("rd", (3, 0))], (⟨1, [(0, 3)], []⟩ : Solver))
      : Except String (List BitsSegment × VarMap × Solver)) = Except.ok (segs, m, s1) := h1
  cases h1'
  have h2' : (Except.ok [SmtExp.eq (SmtExp.var 0) (SmtExp.bits ⟨3, 2⟩)]
      : Except String (List SmtExp)) = Except.ok es := h2
  cases h2'
  refine ⟨h3, ?_, ?_⟩
  · exact (constraints_asserted_before_checkpoint opA [none] hshape).2.1 (by simp)
  · refine (constraints_asserted_before_checkpoint opA
      [some (ExpS.atom (Loc.id "zxx"))] hshape).2.2
      (ExpS.atom (Loc.id "zxx")) "zxx" (by simp) (by decide) ?_
    intro w hw
    simp [opA, zencode_decode, zdecodeAux] at hw

/- ## Events and the result-drain loop (src/footprint.rs lines 279-330) -/

/-- Modelled from the spec: the trace unit.  The variants and the
predicates below mirror what the drain loop's filter closure consults:
memory reads carry a read-kind tag (an enumeration member id), and the
remaining variants cover writes, raw solver events, instruction markers,
cycle markers, register accesses and branches. -/
inductive Event where
  | smtDef
  | readReg
  | writeReg
  | readMem (readKind : Nat)
  | writeMem
  | branch
  | cycle
  | instr (v : Val)
deriving DecidableEq, Repr

def Event.is_memory : Event → Bool
  | .readMem _ => true
  | .writeMem => true
  | _ => false

def Event.has_read_kind (rk : Nat) : Event → Bool
  | .readMem k => k = rk
  | _ => false

def Event.is_smt : Event → Bool
  | .smtDef => true
  | _ => false

def Event.is_instr : Event → Bool
  | .instr _ => true
  | _ => false

def Event.is_cycle : Event → Bool
  | .cycle => true
  | _ => false

def Event.is_write_reg : Event → Bool
  | .writeReg => true
  | _ => false

/-- The filter closure of the dependency arm (lines 294-300), verbatim:
`(ev.is_memory() && !ev.has_read_kind(rk_ifetch)) || ev.is_smt() ||
ev.is_instr() || ev.is_cycle() || ev.is_write_reg()`. -/
def codeInteresting (rk_ifetch : Nat) (ev : Event) : Bool :=
  (ev.is_memory && !(ev.has_read_kind rk_ifetch)) || ev.is_smt || ev.is_instr
    || ev.is_cycle || ev.is_write_reg

/-- The claim's own wording of the kept events: memory events whose
read-kind is not the instruction-fetch kind, raw solver (smt) events,
instruction markers, cycle markers, and register writes. -/
def claimInteresting (rk_ifetch : Nat) (ev : Event) : Bool :=
  match ev with
  | .readMem k => !(decide (k = rk_ifetch))
  | .writeMem => true
  | .smtDef => true
  | .instr _ => true
  | .cycle => true
  | .writeReg => true
  | _ => false

/-- The per-path processing of the dependency arm (lines 290-304): reverse
into chronological order, keep the interesting events, apply the
remove-unused pass (library code, abstract here), append an instruction
event carrying the opcode value. -/
def depPath (remove_unused : List Event → List Event) (rk_ifetch : Nat) (opcode_val : Val)
    (events : List Event) : List Event :=
  remove_unused (events.reverse.filter (codeInteresting rk_ifetch)) ++ [Event.instr opcode_val]

/-- The five trace-simplification passes, library code kept abstract; the
drain loop applies them in the source's fixed order. -/
structure Passes where
  hide_initialization : List Event → List Event
  remove_unused : List Event → List Event
  propagate_forwards_used_once : List Event → List Event
  commute_extract : List Event → List Event
  evalPass : List Event → List Event

/-- The driver flags consulted by the drain loop. -/
structure DriverFlags where
  dependency : Bool
  simplify : Bool
  continueOnError : Bool
deriving DecidableEq, Repr

/-- The trace-printing arm (lines 306-318): when `--simplify` is present
the five passes run once each, in order hide-initialization,
remove-unused, propagate-forwards-used-once, commute-extract, eval; only
then is the path reversed for printing. -/
def tracePath (flags : DriverFlags) (p : Passes) (events : List Event) : List Event :=
  (if flags.simplify then
    p.evalPass (p.commute_extract (p.propagate_forwards_used_once
      (p.remove_unused (p.hide_initialization events))))
  else events).reverse

/-- Driver-visible output state while draining the queue: messages printed
to standard error, traces written to standard output, dependency-mode
collected paths, and pretty-printed footprints. -/
structure LoopState where
  stderr : List String
  printed : List (List Event)
  paths : List (List Event)
  footOut : List String
deriving DecidableEq, Repr

def initState : LoopState := ⟨[], [], [], []⟩

/-- One successful result through the match arms of the loop: the
dependency guard decides between collecting a dependency path and printing
a trace. -/
def processOk (flags : DriverFlags) (p : Passes) (rk_ifetch : Nat) (opcode_val : Val)
    (st : LoopState) (events : List Event) : LoopState :=
  if flags.dependency then
    { st with paths := st.paths ++ [depPath p.remove_unused rk_ifetch opcode_val events] }
  else
    { st with printed := st.printed ++ [tracePath flags p events] }

/-- A result popped from the queue: a completed event path with its task
id, or an execution-error message. -/
abbrev TaskResult := Except String (Nat × List Event)

/-- The drain loop (lines 288-330): pops results in order; a success goes
through `processOk`; an error message is printed to standard error and,
without `--continue-on-error`, the loop returns 1 immediately, leaving the
rest of the queue unprocessed. -/
def drainLoop (flags : DriverFlags) (p : Passes) (rk_ifetch : Nat) (opcode_val : Val) :
    LoopState → List TaskResult → LoopState × Option Nat
  | st, [] => (st, none)
  | st, .ok (_, events) :: rest =>
    drainLoop flags p rk_ifetch opcode_val (processOk flags p rk_ifetch opcode_val st events) rest
  | st, .error msg :: rest =>
    let st' := { st with stderr := st.stderr ++ [msg] }
    if flags.continueOnError then drainLoop flags p rk_ifetch opcode_val st' rest
    else (st', some 1)

/-- The post-loop tail (lines 332-350): in dependency mode the footprint
analysis (library code, abstract here) runs over the collected paths; an
error is printed to standard error with exit code 1, a success
pretty-prints every footprint and falls through to exit code 0. -/
def islaTail (flags : DriverFlags)
    (footprint_analysis : List (List Event) → Except String (List (Nat × String)))
    (st : LoopState) : Nat × LoopState :=
  if flags.dependency then
    match footprint_analysis st.paths with
    | .ok footprints => (0, { st with footOut := st.footOut ++ footprints.map Prod.snd })
    | .error e => (1, { st with stderr := st.stderr ++ [e] })
  else (0, st)

/-- The driver from the first queue pop to the final exit code. -/
def islaRun (flags : DriverFlags) (p : Passes)
    (footprint_analysis : List (List Event) → Except String (List (Nat × String)))
    (rk_ifetch : Nat) (opcode_val : Val) (results : List TaskResult) : Nat × LoopState :=
  match drainLoop flags p rk_ifetch opcode_val initState results with
  | (st, some code) => (code, st)
  | (st, none) => islaTail flags footprint_analysis st

theorem interesting_eq (rk : Nat) (ev : Event) :
    codeInteresting rk ev = claimInteresting rk ev := by
  cases ev <;>
    simp [codeInteresting, claimInteresting, Event.is_memory, Event.has_read_kind,
      Event.is_smt, Event.is_instr, Event.is_cycle, Event.is_write_reg]

theorem getLast?_append_singleton {α : Type _} (l : List α) (a : α) :
    (l ++ [a]).getLast? = some a := by
  induction l with
  | nil => rfl
  | cons b rest ih =>
    cases rest with
    | nil => rfl
    | cons c rest2 =>
      rw [List.cons_append, List.cons_append, List.getLast?_cons_cons]
      rw [← List.cons_append]
      exact ih

/-- C5: in dependency mode every successful path is reversed into
chronological order and filtered down to exactly the claim's interesting
events (the code's filter closure agrees with the claim's five categories
on every event), the remove-unused pass is applied to the filtered list,
and an instruction event carrying the opcode value is appended last;
`processOk` with the dependency flag set collects exactly this path. -/
theorem dependency_filter_spec :
    ∀ (ru : List Event → List Event) (rk : Nat) (v : Val) (events : List Event)
      (p : Passes) (s c : Bool) (st : LoopState),
      depPath ru rk v events
        = ru (events.reverse.filter (claimInteresting rk)) ++ [Event.instr v]
      ∧ (depPath ru rk v events).getLast? = some (Event.instr v)
      ∧ processOk ⟨true, s, c⟩ p rk v st events
          = { st with paths := st.paths ++ [depPath p.remove_unused rk v events] } := by
  intro ru rk v events p s c st
  have hfun : codeInteresting rk = claimInteresting rk := funext (interesting_eq rk)
  refine ⟨?_, ?_, rfl⟩
  · unfold depPath
    rw [hfun]
  · exact getLast?_append_singleton _ _

/-- C6: with `--simplify` and without `--dependency`, the five passes are
applied exactly once each in the order hide-initialization, remove-unused,
propagate-forwards-used-once, commute-extract, eval, and only the result
of that pipeline is reversed and written to standard output; without
`--simplify` the path is printed reversed and untouched. -/
theorem simplify_pipeline_order :
    ∀ (p : Passes) (events : List Event) (c : Bool) (rk : Nat) (v : Val) (st : LoopState),
      tracePath ⟨false, true, c⟩ p events
        = (p.evalPass (p.commute_extract (p.propagate_forwards_used_once
            (p.remove_unused (p.hide_initialization events))))).reverse
      ∧ tracePath ⟨false, false, c⟩ p events = events.reverse
      ∧ processOk ⟨false, true, c⟩ p rk v st events
          = { st with printed := st.printed ++ [tracePath ⟨false, true, c⟩ p events] } := by
  intro p events c rk v st
  exact ⟨rfl, rfl, rfl⟩

/-- C7: in dependency mode a footprint-analysis error is printed to
standard error and the process exits with code 1; on success every
computed footprint is pretty-printed to standard output and the process
exits with code 0; and whenever the drain loop completed without an early
exit, the run ends exactly with this tail. -/
theorem footprint_stage_exit_codes :
    ∀ (s c : Bool) (fa : List (List Event) → Except String (List (Nat × String)))
      (st : LoopState) (p : Passes) (rk : Nat) (v : Val) (results : List TaskResult),
      (∀ e, fa st.paths = .error e →
        islaTail ⟨true, s, c⟩ fa st = (1, { st with stderr := st.stderr ++ [e] }))
      ∧ (∀ fps, fa st.paths = .ok fps →
        islaTail ⟨true, s, c⟩ fa st
          = (0, { st with footOut := st.footOut ++ fps.map Prod.snd }))
      ∧ ((drainLoop ⟨true, s, c⟩ p rk v initState results).2 = none →
        islaRun ⟨true, s, c⟩ p fa rk v results
          = islaTail ⟨true, s, c⟩ fa (drainLoop ⟨true, s, c⟩ p rk v initState results).1) := by
  intro s c fa st p rk v results
  refine ⟨?_, ?_, ?_⟩
  · intro e he
    unfold islaTail
    rw [he]
    simp
  · intro fps hfps
    unfold islaTail
    rw [hfps]
    simp
  · intro hnone
    unfold islaRun
    cases hd : drainLoop ⟨true, s, c⟩ p rk v initState results with
    | mk st1 opt =>
      rw [hd] at hnone
      simp at hnone
      rw [hnone]

def idPasses : Passes := ⟨id, id, id, id, id⟩

def faEmpty : List (List Event) → Except String (List (Nat × String)) := fun _ => .ok []

def faShapeErr : List (List Event) → Except String (List (Nat × String)) :=
  fun _ => .error "FootprintError"

def v0 : Val := .Bits ⟨32, 0⟩

/-- Witness for `footprint_stage_exit_codes`: a failing analysis gives
exit code 1 with the error on standard error; a succeeding one gives exit
code 0 with its footprint pretty-printed. -/
theorem footprint_stage_exit_codes_witness :
    islaTail ⟨true, false, false⟩ faShapeErr initState
      = (1, { initState with stderr := ["FootprintError"] })
    ∧ islaTail ⟨true, false, false⟩ faEmpty initState = (0, initState)
    ∧ islaRun ⟨true, false, false⟩ idPasses faEmpty 0 v0 []
        = islaTail ⟨true, false, false⟩ faEmpty
            (drainLoop ⟨true, false, false⟩ idPasses 0 v0 initState []).1 := by
  refine ⟨?_, ?_, ?_⟩
  · exact (footprint_stage_exit_codes false false faShapeErr initState idPasses 0 v0 []).1
      "FootprintError" rfl
  · exact (footprint_stage_exit_codes false false faEmpty initState idPasses 0 v0 []).2.1 [] rfl
  · exact (footprint_stage_exit_codes false false faEmpty initState idPasses 0 v0 []).2.2 rfl

/- ## Claim C1: error handling in the drain loop -/

def errMsgs (rs : List TaskResult) : List String :=
  rs.filterMap (fun r => match r with | .error m => some m | .ok _ => none)

def okEvents (rs : List TaskResult) : List (List Event) :=
  rs.filterMap (fun r => match r with | .ok te => some te.2 | .error _ => none)

theorem processOk_stderr (flags : DriverFlags) (p : Passes) (rk : Nat) (v : Val)
    (st : LoopState) (events : List Event) :
    (processOk flags p rk v st events).stderr = st.stderr := by
  unfold processOk
  split <;> rfl

theorem drainLoop_continue (flags : DriverFlags) (p : Passes) (rk : Nat) (v : Val)
    (hc : flags.continueOnError = true) :
    ∀ (rs : List TaskResult) (st : LoopState),
      (drainLoop flags p rk v st rs).2 = none
      ∧ (drainLoop flags p rk v st rs).1.stderr = st.stderr ++ errMsgs rs
      ∧ (flags.dependency = false →
          (drainLoop flags p rk v st rs).1.printed
            = st.printed ++ (okEvents rs).map (tracePath flags p)) := by
  intro rs
  induction rs with
  | nil => intro st; simp [drainLoop, errMsgs, okEvents]
  | cons r rest ih =>
    intro st
    cases r with
    | ok te =>
      obtain ⟨tid, events⟩ := te
      simp only [drainLoop]
      obtain ⟨h1, h2, h3⟩ := ih (processOk flags p rk v st events)
      refine ⟨h1, ?_, ?_⟩
      · rw [h2, processOk_stderr]
        simp [errMsgs]
      · intro hdep
        rw [h3 hdep]
        have hpr : (processOk flags p rk v st events).printed
            = st.printed ++ [tracePath flags p events] := by
          unfold processOk
          rw [hdep]
          simp
        rw [hpr]
        simp [okEvents]
    | error msg =>
      simp only [drainLoop, hc, if_true]
      obtain ⟨h1, h2, h3⟩ := ih { st with stderr := st.stderr ++ [msg] }
      refine ⟨h1, ?_, ?_⟩
      · rw [h2]
        simp [errMsgs]
      · intro hdep
        rw [h3 hdep]
        simp [okEvents]

theorem drainLoop_append (flags : DriverFlags) (p : Passes) (rk : Nat) (v : Val) :
    ∀ (xs ys : List TaskResult) (st : LoopState),
      drainLoop flags p rk v st (xs ++ ys)
        = match drainLoop flags p rk v st xs with
          | (st1, none) => drainLoop flags p rk v st1 ys
          | (st1, some code) => (st1, some code) := by
  intro xs
  induction xs with
  | nil => intro ys st; simp [drainLoop]
  | cons r rest ih =>
    intro ys st
    cases r with
    | ok te =>
      obtain ⟨tid, events⟩ := te
      simp only [List.cons_append, drainLoop]
      exact ih ys (processOk flags p rk v st events)
    | error msg =>
      simp only [List.cons_append, drainLoop]
      by_cases hc : flags.continueOnError = true
      · simp only [hc, if_true]
        exact ih ys { st with stderr := st.stderr ++ [msg] }
      · simp only [Bool.not_eq_true] at hc
        simp only [hc]
        rfl

theorem drainLoop_no_error (flags : DriverFlags) (p : Passes) (rk : Nat) (v : Val) :
    ∀ (xs : List TaskResult) (st : LoopState), (∀ m, Except.error m ∉ xs) →
      (drainLoop flags p rk v st xs).2 = none := by
  intro xs
  induction xs with
  | nil => intro st _; rfl
  | cons r rest ih =>
    intro st hno
    cases r with
    | ok te =>
      obtain ⟨tid, events⟩ := te
      simp only [drainLoop]
      refine ih _ ?_
      intro m hm
      exact hno m (List.mem_cons_of_mem _ hm)
    | error msg => exact absurd (List.mem_cons_self _ _) (hno msg)

/-- C1 (amended): every execution-error message popped from the queue is
printed to standard error; without `--continue-on-error` the first error
makes the run exit 1 immediately (the results after it are never
processed: the outcome does not mention them); with the flag the loop
drains everything, printing every error message and processing every
successful result — and the final exit code in trace mode is then 0
whether or not any successful path was present. -/
theorem drain_loop_error_policy :
    ∀ (flags : DriverFlags) (p : Passes)
      (fa : List (List Event) → Except String (List (Nat × String)))
      (rk : Nat) (v : Val) (st : LoopState) (rs pre post : List TaskResult) (m : String),
      (flags.continueOnError = true →
        (drainLoop flags p rk v st rs).2 = none
        ∧ (drainLoop flags p rk v st rs).1.stderr = st.stderr ++ errMsgs rs
        ∧ (flags.dependency = false →
            (drainLoop flags p rk v st rs).1.printed
              = st.printed ++ (okEvents rs).map (tracePath flags p)))
      ∧ (flags.continueOnError = false → (∀ m2, Except.error m2 ∉ pre) →
          drainLoop flags p rk v initState (pre ++ Except.error m :: post)
            = ({ (drainLoop flags p rk v initState pre).1 with
                  stderr := (drainLoop flags p rk v initState pre).1.stderr ++ [m] },
               some 1))
      ∧ (flags.continueOnError = true → flags.dependency = false →
          (islaRun flags p fa rk v rs).1 = 0) := by
  intro flags p fa rk v st rs pre post m
  refine ⟨?_, ?_, ?_⟩
  · intro hc
    exact drainLoop_continue flags p rk v hc rs st
  · intro hc hpre
    rw [drainLoop_append]
    cases hd : drainLoop flags p rk v initState pre with
    | mk st1 opt =>
      have hnone := drainLoop_no_error flags p rk v pre initState hpre
      rw [hd] at hnone
      simp only at hnone
      subst hnone
      simp only [drainLoop, hc]
      rfl
  · intro hc hdep
    unfold islaRun
    cases hd : drainLoop flags p rk v initState rs with
    | mk st1 opt =>
      have hnone := (drainLoop_continue flags p rk v hc rs initState).1
      rw [hd] at hnone
      simp only at hnone
      subst hnone
      unfold islaTail
      rw [hdep]
      simp

/-- C1 counterexample: with `--continue-on-error` in trace mode and a
queue holding one execution error and no successful path, the error is
printed yet the process exits 0 — the exit code does not reflect the
presence of remaining successful paths. -/
theorem continue_on_error_exit_zero_cex :
    (islaRun ⟨false, false, true⟩ idPasses faEmpty 0 v0 [Except.error "boom"]).1 = 0
    ∧ (islaRun ⟨false, false, true⟩ idPasses faEmpty 0 v0 [Except.error "boom"]).2.stderr
        = ["boom"]
    ∧ okEvents [(Except.error "boom" : TaskResult)] = []
    ∧ ¬(((islaRun ⟨false, false, true⟩ idPasses faEmpty 0 v0 [Except.error "boom"]).1 = 0)
        ↔ okEvents [(Except.error "boom" : TaskResult)] ≠ []) := by
  refine ⟨rfl, rfl, rfl, ?_⟩
  intro hiff
  exact (hiff.mp rfl) rfl

/-- Witness for `drain_loop_error_policy`, at concrete queue contents for
each of its three modes. -/
theorem drain_loop_error_policy_witness :
    (drainLoop ⟨false, false, true⟩ idPasses 0 v0 initState
        [Except.error "e1", Except.ok (0, [Event.cycle])]).2 = none
    ∧ (drainLoop ⟨false, false, true⟩ idPasses 0 v0 initState
        [Except.error "e1", Except.ok (0, [Event.cycle])]).1.stderr = ["e1"]
    ∧ drainLoop ⟨false, false, false⟩ idPasses 0 v0 initState
        ([Except.ok (0, [Event.cycle])] ++ Except.error "e2" :: [Except.ok (1, [])])
        = ({ (drainLoop ⟨false, false, false⟩ idPasses 0 v0 initState
                [Except.ok (0, [Event.cycle])]).1 with
              stderr := (drainLoop ⟨false, false, false⟩ idPasses 0 v0 initState
                [Except.ok (0, [Event.cycle])]).1.stderr ++ ["e2"] }, some 1)
    ∧ (islaRun ⟨false, false, true⟩ idPasses faEmpty 0 v0
        [Except.error "e1", Except.ok (0, [Event.cycle])]).1 = 0 := by
  have t1 := drain_loop_error_policy ⟨false, false, true⟩ idPasses faEmpty 0 v0 initState
    [Except.error "e1", Except.ok (0, [Event.cycle])] [] [] "x"
  have t2 := drain_loop_error_policy ⟨false, false, false⟩ idPasses faEmpty 0 v0 initState
    [] [Except.ok (0, [Event.cycle])] [Except.ok (1, [])] "e2"
  refine ⟨(t1.1 rfl).1, ((t1.1 rfl).2.1).trans rfl, ?_, t1.2.2 rfl rfl⟩
  refine (t2.2.1 rfl ?_)
  intro m2 hm
  simp at hm

/- ## Claim C8: entry-point selection (src/footprint.rs lines 257-260, 270) -/

def footprint_function (fopt : Option String) : String :=
  match fopt with
  | some name => zencode_encode name
  | none => "zisla_footprint"

/-- The driver's symbol-table lookup of the footprint function: the symbol table is
library state, kept abstract as a lookup function. -/
def entryFunction (symtabLookup : String → Nat) (fopt : Option String) : Nat :=
  symtabLookup (footprint_function fopt)

/-- C8: with no `--function` flag the entry point is the fixed z-encoded
name `zisla_footprint` looked up in the shared symbol table; with the flag
the argument is z-encoded and that identifier is looked up instead.  The
default string is itself the z-encoding of `isla_footprint`. -/
theorem entry_point_selection :
    ∀ (symtabLookup : String → Nat) (name : String),
      footprint_function none = "zisla_footprint"
      ∧ footprint_function (some name) = zencode_encode name
      ∧ entryFunction symtabLookup none = symtabLookup "zisla_footprint"
      ∧ entryFunction symtabLookup (some name) = symtabLookup (zencode_encode name)
      ∧ zencode_encode "isla_footprint" = "zisla_footprint" := by
  intro symtabLookup name
  exact ⟨rfl, rfl, rfl, rfl, by decide⟩

/- ## The IR lexer (isla-lib/src/ir_lexer.rs) -/

/-- The token type of the IR lexer, with the source's constructor set. -/
inductive Tok where
  | Nat (lit : String)
  | Id (lit : String)
  | String (lit : String)
  | Hex (lit : String)
  | Bin (lit : String)
  | OpNot
  | OpOr
  | OpAnd
  | OpEq
  | OpNeq
  | OpSlice
  | OpSetSlice
  | OpConcat
  | OpSigned
  | OpUnsigned
  | OpBvnot
  | OpBvor
  | OpBvxor
  | OpBvand
  | OpBvadd
  | OpBvsub
  | OpBvaccess
  | OpAdd
  | OpSub
  | OpLteq
  | OpLt
  | OpGteq
  | OpGt
  | OpHead
  | OpTail
  | TyI
  | TyBv
  | TyUnit
  | TyBool
  | TyBit
  | TyString
  | TyReal
  | TyEnum
  | TyStruct
  | TyUnion
  | TyVec
  | TyFVec
  | TyList
  | TurboFish
  | Backtick
  | Gt
  | Amp
  | Lparen
  | Rparen
  | Lbrace
  | Rbrace
  | Dot
  | Star
  | Colon
  | Eq
  | Comma
  | Semi
  | Dollar
  | Bitzero
  | Bitone
  | Unit
  | Arrow
  | Minus
  | Struct
  | Is
  | As
  | Jump
  | Goto
  | Mono
  | Failure
  | Arbitrary
  | Undefined
  | End
  | Register
  | Fn
  | Let
  | Enum
  | Union
  | Val
  | True
  | False

structure Keyword where
  word : List Char
  token : Tok
  len : Nat

def Keyword.new (kw : String) (tok : Tok) : Keyword := ⟨kw.data, tok, kw.length⟩

/-- The keyword table, in the source's construction order — including the
duplicate `bitzero`/`bitone` entries near the end and the source's
`@bvxor` entry carrying the `OpBvor` token. -/
def KEYWORDS : List Keyword := [
  Keyword.new "::<" .TurboFish,
  Keyword.new "`" .Backtick,
  Keyword.new ">" .Gt,
  Keyword.new "()" .Unit,
  Keyword.new "->" .Arrow,
  Keyword.new "&" .Amp,
  Keyword.new "(" .Lparen,
  Keyword.new ")" .Rparen,
  Keyword.new "\x7b" .Lbrace,
  Keyword.new "\x7d" .Rbrace,
  Keyword.new "." .Dot,
  Keyword.new "*" .Star,
  Keyword.new ":" .Colon,
  Keyword.new "=" .Eq,
  Keyword.new "," .Comma,
  Keyword.new ";" .Semi,
  Keyword.new "$" .Dollar,
  Keyword.new "bitzero" .Bitzero,
  Keyword.new "bitone" .Bitone,
  Keyword.new "-" .Minus,
  Keyword.new "struct" .Struct,
  Keyword.new "is" .Is,
  Keyword.new "as" .As,
  Keyword.new "jump" .Jump,
  Keyword.new "goto" .Goto,
  Keyword.new "mono" .Mono,
  Keyword.new "failure" .Failure,
  Keyword.new "arbitrary" .Arbitrary,
  Keyword.new "undefined" .Undefined,
  Keyword.new "end" .End,
  Keyword.new "register" .Register,
  Keyword.new "fn" .Fn,
  Keyword.new "let" .Let,
  Keyword.new "enum" .Enum,
  Keyword.new "union" .Union,
  Keyword.new "val" .Val,
  Keyword.new "%i" .TyI,
  Keyword.new "%unit" .TyUnit,
  Keyword.new "%bool" .TyBool,
  Keyword.new "%bit" .TyBit,
  Keyword.new "%string" .TyString,
  Keyword.new "%real" .TyReal,
  Keyword.new "%enum" .TyEnum,
  Keyword.new "%struct" .TyStruct,
  Keyword.new "%union" .TyUnion,
  Keyword.new "%vec" .TyVec,
  Keyword.new "%fvec" .TyFVec,
  Keyword.new "%list" .TyList,
  Keyword.new "%bv" .TyBv,
  Keyword.new "@slice" .OpSlice,
  Keyword.new "@set_slice" .OpSetSlice,
  Keyword.new "@concat" .OpConcat,
  Keyword.new "@unsigned" .OpUnsigned,
  Keyword.new "@signed" .OpSigned,
  Keyword.new "@not" .OpNot,
  Keyword.new "@or" .OpOr,
  Keyword.new "@and" .OpAnd,
  Keyword.new "@eq" .OpEq,
  Keyword.new "@neq" .OpNeq,
  Keyword.new "@bvnot" .OpBvnot,
  Keyword.new "@bvor" .OpBvor,
  Keyword.new "@bvxor" .OpBvor,
  Keyword.new "@bvand" .OpBvand,
  Keyword.new "@bvadd" .OpBvadd,
  Keyword.new "@bvsub" .OpBvsub,
  Keyword.new "@bvaccess" .OpBvaccess,
  Keyword.new "@lteq" .OpLteq,
  Keyword.new "@lt" .OpLt,
  Keyword.new "@gteq" .OpGteq,
  Keyword.new "@gt" .OpGt,
  Keyword.new "@hd" .OpHead,
  Keyword.new "@tl" .OpTail,
  Keyword.new "@iadd" .OpAdd,
  Keyword.new "@isub" .OpSub,
  Keyword.new "bitzero" .Bitzero,
  Keyword.new "bitone" .Bitone,
  Keyword.new "true" .True,
  Keyword.new "false" .False]

/-- Modelled from the spec: `consume_whitespace` from the shared lexer
module (not among the source files) skips leading whitespace and signals
end of input with `none`. -/
def consumeWhitespace (pos : Nat) (buf : List Char) : Option (Nat × List Char) :=
  let rest := buf.dropWhile Char.isWhitespace
  if rest.isEmpty then none else some (pos + (buf.length - rest.length), rest)

def isIdStart (c : Char) : Bool := c.isAlpha || c = '_'

def isIdChar (c : Char) : Bool := c.isAlphanum || c = '_'

/-- Modelled from the spec: the shared lexer module's `ID_REGEX` — an
identifier is a letter or underscore followed by letters, digits or
underscores. -/
def takeId (buf : List Char) : Option (List Char × List Char) :=
  match buf with
  | c :: rest =>
    if isIdStart c then some (c :: rest.takeWhile isIdChar, rest.dropWhile isIdChar)
    else none
  | [] => none

def isHexDigitChar (c : Char) : Bool := (hexDigit? c).isSome

/-- Modelled from the spec: `HEX_REGEX` — `0x` followed by hex digits; the
token keeps only the digits. -/
def takeHex (buf : List Char) : Option (List Char × List Char) :=
  match buf with
  | '0' :: 'x' :: rest =>
    let ds := rest.takeWhile isHexDigitChar
    if ds.isEmpty then none else some (ds, rest.dropWhile isHexDigitChar)
  | _ => none

/-- Modelled from the spec: `BIN_REGEX` — `0b` followed by binary digits;
the token keeps only the digits. -/
def takeBin (buf : List Char) : Option (List Char × List Char) :=
  match buf with
  | '0' :: 'b' :: rest =>
    let ds := rest.takeWhile binDigit
    if ds.isEmpty then none else some (ds, rest.dropWhile binDigit)
  | _ => none

/-- Modelled from the spec: `NAT_REGEX` — a nonempty digit run. -/
def takeNat (buf : List Char) : Option (List Char × List Char) :=
  let ds := buf.takeWhile decDigit
  if ds.isEmpty then none else some (ds, buf.dropWhile decDigit)

/-- Modelled from the spec: `consume_string_literal` — a double-quoted
run without embedded quotes. -/
def takeStringLit (buf : List Char) : Option (List Char × List Char) :=
  match buf with
  | '"' :: rest =>
    let content := rest.takeWhile (fun c => !(c = '"'))
    match rest.dropWhile (fun c => !(c = '"')) with
    | '"' :: rest2 => some (content, rest2)
    | _ => none
  | _ => none

/-- One lexer step's outcome: a token span, a lex error, or end of input. -/
inductive LexItem where
  | tok (start : Nat) (t : Tok) (stop : Nat) (rest : List Char)
  | fail (pos : Nat)
  | eof

/-- The keyword scan of `Lexer::next` (lines 228-234): walk the table in
order and take the first entry whose word is a prefix of the remaining
input. -/
def findKeyword : List Keyword → List Char → Option Keyword
  | [], _ => none
  | k :: rest, buf => if k.word.isPrefixOf buf then some k else findKeyword rest buf

/-- The iterator step of the lexer (ir_lexer.rs lines 223-262): whitespace, then the
keyword table in construction order, then the identifier, hex, binary,
natural-number and string-literal patterns, in that order. -/
def lexNext (pos : Nat) (buf : List Char) : LexItem :=
  match consumeWhitespace pos buf with
  | none => .eof
  | some (p, b) =>
    match findKeyword KEYWORDS b with
    | some k => .tok p k.token (p + k.len) (b.drop k.len)
    | none =>
      match takeId b with
      | some (lit, rest) => .tok p (.Id (String.mk lit)) (p + lit.length) rest
      | none =>
        match takeHex b with
        | some (ds, rest) => .tok p (.Hex (String.mk ds)) (p + ds.length + 2) rest
        | none =>
          match takeBin b with
          | some (ds, rest) => .tok p (.Bin (String.mk ds)) (p + ds.length + 2) rest
          | none =>
            match takeNat b with
            | some (ds, rest) => .tok p (.Nat (String.mk ds)) (p + ds.length) rest
            | none =>
              match takeStringLit b with
              | some (lit, rest) => .tok p (.String (String.mk lit)) (p + lit.length + 2) rest
              | none => .fail p

def kwPrefixAt (ks : List Keyword) (j : Nat) (b : List Char) : Bool :=
  match ks.get? j with
  | some k => k.word.isPrefixOf b
  | none => false

theorem findKeyword_first :
    ∀ (ks : List Keyword) (i : Nat) (k : Keyword) (b : List Char),
      ks.get? i = some k → k.word.isPrefixOf b = true →
      (∀ j, j < i → kwPrefixAt ks j b = false) →
      findKeyword ks b = some k := by
  intro ks
  induction ks with
  | nil => intro i k b hi _ _; cases i <;> cases hi
  | cons k0 rest ih =>
    intro i k b hi hp hj
    cases i with
    | zero =>
      cases hi
      simp [findKeyword, hp]
    | succ i =>
      have h0 : kwPrefixAt (k0 :: rest) 0 b = false := hj 0 (Nat.succ_pos i)
      simp only [kwPrefixAt, List.get?] at h0
      simp only [findKeyword, h0, Bool.false_eq_true, if_false]
      refine ih i k b hi hp ?_
      intro j hjlt
      have hj1 := hj (j + 1) (Nat.succ_lt_succ hjlt)
      simpa [kwPrefixAt, List.get?] using hj1

/-- C10: after whitespace, `Lexer::next` scans the keyword table in its
construction order; the first entry whose word is a prefix of the
remaining input yields that entry's token with the position advanced by
the word's length — before the identifier, hex, binary, natural-number or
string-literal rules are ever consulted, so an input beginning with a
keyword lexes as that keyword even when the keyword is a proper prefix of
a longer identifier (see the witness). -/
theorem lexer_keyword_first :
    ∀ (pos : Nat) (buf b : List Char) (p i : Nat) (k : Keyword),
      consumeWhitespace pos buf = some (p, b) →
      KEYWORDS.get? i = some k →
      k.word.isPrefixOf b = true →
      (∀ j, j < i → kwPrefixAt KEYWORDS j b = false) →
      lexNext pos buf = .tok p k.token (p + k.len) (b.drop k.len) := by
  intro pos buf b p i k hws hi hp hj
  unfold lexNext
  rw [hws]
  dsimp only
  rw [findKeyword_first KEYWORDS i k b hi hp hj]

/-- Witness for `lexer_keyword_first`: the input `structural` — where the
identifier rule would match the whole word — lexes as the keyword
`struct` (table index 20, every earlier entry failing the prefix test),
leaving `ural`. -/
theorem lexer_keyword_first_witness :
    lexNext 0 "structural".data = LexItem.tok 0 Tok.Struct 6 "ural".data
    ∧ takeId "structural".data = some ("structural".data, []) := by
  constructor
  · exact lexer_keyword_first 0 "structural".data "structural".data 0 20
      (Keyword.new "struct" Tok.Struct) rfl rfl rfl (by decide)
  · rfl

/-- Witness for `opcode_bytes_endianness`: the two-byte opcode AA BB
assembles little-endian to 0xBBAA and big-endian to 0xAABB, and the
endianness value `middle` is rejected. -/
theorem opcode_bytes_endianness_witness :
    opcode_bytes [170, 187] true = Except.ok (B129.from_u16 48042)
    ∧ opcode_bytes [170, 187] false = Except.ok (B129.from_u16 43707)
    ∧ parse_endianness (some "middle")
        = .error "--endianness argument must be one of either big or little" := by
  refine ⟨?_, ?_, ?_⟩
  · exact (opcode_bytes_endianness.1 [170, 187] true).trans rfl
  · exact (opcode_bytes_endianness.1 [170, 187] false).trans rfl
  · exact opcode_bytes_endianness.2.2.2.2 "middle" (by decide) (by decide)
